import Mathlib

/-!
Verification of the fingerprint/PR relational engine of `gh-pr-review`.

The development shallowly embeds the Go source:
* `pkg/gh/pr.go` — the fingerprint extractor (`getPrHash`) and the fan-out
  collector (`GetPrReviewRequested`);
* `pkg/approve` — the interactive decision engine (`ManualApproval` and its
  helpers `collectHashesForUsers`, `isAllDuplicateApproved`,
  `autoApproveLinkedHashes`, `autoDeclineLinkedHashes`, `promptActionForHash`,
  `processApprovals`).

Go maps are embedded as association lists (`List (String × α)`) in insertion
order; map lookup is the first matching key.  Pull requests are identified by
their HTML URL, the only attribute the modelled code consults.  The SHA-256
digest of `crypto/sha256` is kept abstract: every statement about fingerprints
is parameterised over the digest function `digest : String → String`, applied
exactly where the source applies `sha256.Sum256`.
-/

namespace GhPrReview

/-! ### Association-list maps (embedding of Go maps) -/

def lookupA {α : Type} : List (String × α) → String → Option α
  | [], _ => none
  | (k', v) :: rest, k => if k' = k then some v else lookupA rest k

def setA {α : Type} (k : String) (v : α) : List (String × α) → List (String × α)
  | [] => [(k, v)]
  | (k', v') :: rest => if k' = k then (k, v) :: rest else (k', v') :: setA k v rest

/-! ### Fingerprint extractor (`getPrHash` in `pkg/gh/pr.go`)

The source scans the diff line by line, keeping the accumulated change lines of
the current hunk in `hunkLines` and a flag `inHunk`; a `@@` header and the end
of input both close the current hunk, hashing the accumulated lines when there
are any. -/

/-- `strings.HasPrefix(s, p)` (Go), i.e. `String.startsWith`, embedded on the
underlying character lists so that concrete instances compute. -/
def hasPrefixS (s p : String) : Bool := p.data.isPrefixOf s.data

def isChangeLine (line : String) : Bool :=
  (hasPrefixS line "+" || hasPrefixS line "-") &&
    !hasPrefixS line "+++" && !hasPrefixS line "---"

def closeHunk (digest : String → String) (hashes hunkLines : List String) : List String :=
  if hunkLines = [] then hashes
  else hashes ++ [digest (String.intercalate "\n" hunkLines)]

def getPrHashLoop (digest : String → String) :
    List String → List String → Bool → List String → List String
  | [], hunkLines, _, hashes => closeHunk digest hashes hunkLines
  | line :: rest, hunkLines, inHunk, hashes =>
    if hasPrefixS line "@@" then
      getPrHashLoop digest rest [] true (closeHunk digest hashes hunkLines)
    else if inHunk && isChangeLine line then
      getPrHashLoop digest rest (hunkLines ++ [line]) inHunk hashes
    else
      getPrHashLoop digest rest hunkLines inHunk hashes

/-- The scan of `getPrHash` over an already-split line list. -/
def getPrHashLines (digest : String → String) (lines : List String) : List String :=
  getPrHashLoop digest lines [] false []

def getPrHash (digest : String → String) (diff : String) : List String :=
  getPrHashLines digest (diff.splitOn "\n")

/-- Reference algorithm written from the spec's words: split the lines at `@@`
headers into hunks (dropping everything before the first header), keep each
hunk's change lines, and emit a digest per hunk with at least one change
line. -/
def splitHunksAux : List String → List (List String)
  | [] => [[]]
  | line :: rest =>
    if hasPrefixS line "@@" then [] :: splitHunksAux rest
    else
      match splitHunksAux rest with
      | [] => [[line]]
      | seg :: segs => (line :: seg) :: segs

def specHunks : List String → List (List String)
  | [] => []
  | line :: rest =>
    if hasPrefixS line "@@" then splitHunksAux rest else specHunks rest

def hunkDigest (digest : String → String) (hunk : List String) : Option String :=
  if hunk.filter (fun l => isChangeLine l) = [] then none
  else some (digest (String.intercalate "\n" (hunk.filter fun l => isChangeLine l)))

def specEmit (digest : String → String) (hunks : List (List String)) : List String :=
  hunks.filterMap (hunkDigest digest)

def specFingerprints (digest : String → String) (diff : String) : List String :=
  specEmit digest (specHunks (diff.splitOn "\n"))

/-- Prepend already-accumulated change lines to the first hunk segment. -/
def consHead (pre : List String) : List (List String) → List (List String)
  | [] => [pre]
  | seg :: segs => (pre ++ seg) :: segs

/-! ### Fan-out collector (`GetPrReviewRequested` in `pkg/gh/pr.go`)

One notification either is skipped (wrong reason, missing or non-open PR),
resolves to the PR's user, URL, fingerprint list and change-line map, or fails
(the PR fetch or the diff fetch errors).  The network calls are abstracted into
this per-notification outcome; the merge of one resolved notification into the
four shared indices follows the locked section of the source line by line. -/

structure Resolution where
  user : String
  prKey : String
  hashes : List String
  changeLines : List (String × List String)
deriving DecidableEq

inductive NotifResult where
  | skip
  | ok (r : Resolution)
  | fail (e : String)
deriving DecidableEq

def NotifResult.isFail : NotifResult → Bool
  | .fail _ => true
  | _ => false

structure Indices where
  userHashPrMap : List (String × List (String × List String))
  hashChangeMap : List (String × List String)
  hashPrMap : List (String × List String)
  prHashMap : List (String × List String)
deriving DecidableEq

def emptyIndices : Indices := ⟨[], [], [], []⟩

/-- `if userHashPrMap[prUser] == nil { userHashPrMap[prUser] = make(...) }`. -/
def ensureUser (user : String) (st : Indices) : Indices :=
  match lookupA st.userHashPrMap user with
  | some _ => st
  | none => { st with userHashPrMap := st.userHashPrMap ++ [(user, [])] }

/-- First block of the per-hash merge: append the PR to
`userHashPrMap[prUser][h]` unless a PR with the same HTML URL is present. -/
def mergeUserHash (user prKey h : String) (st : Indices) : Indices :=
  let umap := (lookupA st.userHashPrMap user).getD []
  let uprs := (lookupA umap h).getD []
  if prKey ∈ uprs then st
  else { st with userHashPrMap := setA user (setA h (uprs ++ [prKey]) umap) st.userHashPrMap }

/-- Second block: append the PR to the global `hashPrMap[h]` with dedupe by
URL. -/
def mergeGlobalHash (prKey h : String) (st : Indices) : Indices :=
  let gprs := (lookupA st.hashPrMap h).getD []
  if prKey ∈ gprs then st
  else { st with hashPrMap := setA h (gprs ++ [prKey]) st.hashPrMap }

/-- Third block: append `h` to `prHashMap[prKey]` with dedupe. -/
def mergePrHash (prKey h : String) (st : Indices) : Indices :=
  let hs := (lookupA st.prHashMap prKey).getD []
  if h ∈ hs then st
  else { st with prHashMap := setA prKey (hs ++ [h]) st.prHashMap }

/-- The body of `for _, h := range prHash` in the locked merge section: the
three dedup-append blocks in source order (they touch disjoint maps). -/
def mergeHash (user prKey : String) (st : Indices) (h : String) : Indices :=
  mergePrHash prKey h (mergeGlobalHash prKey h (mergeUserHash user prKey h st))

/-- `for k, v := range prMap { if _, ok := hashChangeMap[k]; !ok { hashChangeMap[k] = v } }`. -/
def mergeChangeLines (st : Indices) (kv : String × List String) : Indices :=
  match lookupA st.hashChangeMap kv.1 with
  | some _ => st
  | none => { st with hashChangeMap := st.hashChangeMap ++ [kv] }

def mergeResolution (st : Indices) (r : Resolution) : Indices :=
  let st1 := ensureUser r.user st
  let st2 := r.hashes.foldl (mergeHash r.user r.prKey) st1
  r.changeLines.foldl mergeChangeLines st2

def applyResult (st : Indices) : NotifResult → Indices
  | .ok r => mergeResolution st r
  | _ => st

/-- Embedding of `GetPrReviewRequested`.  The input is the outcome of
`getNotifications` together with each notification's resolution outcome.  The
output pairs the returned indices (when non-nil) with the returned error (when
non-nil): the source returns `(maps, nil)` on success, `(nil..., err)` when the
notification listing fails, and — dropping the error of `eg.Wait()` —
`(nil, nil, nil, nil, nil)` when any single resolution fails. -/
def getPrReviewRequested : Except String (List NotifResult) → Option Indices × Option String
  | .error e => (none, some e)
  | .ok rs =>
    if rs.any NotifResult.isFail then (none, none)
    else (some (rs.foldl applyResult emptyIndices), none)

/-- Mutual consistency of the global hash→PRs and PR→hashes indices. -/
def indicesConsistent (st : Indices) : Prop :=
  ∀ f p, p ∈ (lookupA st.hashPrMap f).getD [] ↔ f ∈ (lookupA st.prHashMap p).getD []

/-- The pull request `prKey` is recorded for hash `h` in the three hash-indexed
maps (under `user`): the state in which `mergeHash user prKey _ h` is a no-op. -/
def hashDone (user prKey : String) (st : Indices) (h : String) : Prop :=
  prKey ∈ (lookupA ((lookupA st.userHashPrMap user).getD []) h).getD [] ∧
  prKey ∈ (lookupA st.hashPrMap h).getD [] ∧
  h ∈ (lookupA st.prHashMap prKey).getD []

/-! ### Decision engine (`pkg/approve`)

`DecState` is the mutable state of one `ManualApproval` decision pass:
the `approved`, `declined` and `prSkipped` maps (Go `map[string]bool`, used as
sets) plus the `firstSeen` change-line table.  Operator input is abstracted to
the decisive action eventually entered at each prompt; `s` (show comment),
re-prompts after invalid input, and `q` (immediate process exit) do not modify
the state. -/

structure DecState where
  approved : List String
  declined : List String
  prSkipped : List String
  firstSeen : List (String × String)
deriving DecidableEq

def emptyDecState : DecState := ⟨[], [], [], []⟩

/-- `m[k] = true` on a Go map used as a set. -/
def insertS (x : String) (s : List String) : List String :=
  if x ∈ s then s else s ++ [x]

inductive OpAction where
  | approve
  | decline
deriving DecidableEq

/-- The loop of `isAllDuplicateApproved`: `none` models the `allDup = false`
early break, `some os` the accumulated set of originating hashes. -/
def dupScan (h : String) (firstSeen : List (String × String)) (approved : List String) :
    List String → Option (List String)
  | [] => some []
  | line :: rest =>
    match lookupA firstSeen line with
    | none => none
    | some first =>
      if first = h then none
      else if first ∉ approved then none
      else
        match dupScan h firstSeen approved rest with
        | none => none
        | some os => some (insertS first os)

/-- `isAllDuplicateApproved` from `pkg/approve`: all change lines of `h` were
first seen under other, already-approved hashes. -/
def isAllDuplicateApproved (h : String) (changeMap : List (String × List String))
    (firstSeen : List (String × String)) (approved : List String) : Bool × List String :=
  match lookupA changeMap h with
  | none => (false, [])
  | some changes =>
    match dupScan h firstSeen approved changes with
    | none => (false, [])
    | some os => if os = [] then (false, []) else (true, os.insertionSort (· ≤ ·))

/-- `printChangesAndMarkFirstSeen`: record `firstSeen[line] = h` for lines not
seen before (the printing is a pure side effect). -/
def markFirstSeen (h : String) (changes : List String)
    (fs : List (String × String)) : List (String × String) :=
  changes.foldl (fun fs line =>
    match lookupA fs line with
    | some _ => fs
    | none => fs ++ [(line, h)]) fs

/-- Inner loop of `autoApproveLinkedHashes` over the hashes linked to one PR. -/
def approveLinked (h : String) (st : DecState) (linked : List String) : DecState :=
  linked.foldl (fun st lh =>
    if lh = h then st
    else if lh ∉ st.approved ∧ lh ∉ st.declined then
      { st with approved := st.approved ++ [lh] }
    else st) st

def approvePr (h : String) (prMap : List (String × List String)) (st : DecState)
    (prKey : String) : DecState :=
  approveLinked h st ((lookupA prMap prKey).getD [])

/-- `autoApproveLinkedHashes` from `pkg/approve`. -/
def autoApproveLinkedHashes (h : String) (hashPrMap prMap : List (String × List String))
    (st : DecState) : DecState :=
  ((lookupA hashPrMap h).getD []).foldl (approvePr h prMap) st

/-- Inner loop of `autoDeclineLinkedHashes` over the hashes linked to one PR. -/
def declineLinked (h : String) (st : DecState) (linked : List String) : DecState :=
  linked.foldl (fun st lh =>
    if lh = h then st
    else if lh ∈ st.declined then st
    else { st with declined := st.declined ++ [lh] }) st

def declinePr (h : String) (prMap : List (String × List String)) (st : DecState)
    (prKey : String) : DecState :=
  let st1 := if prKey ∈ st.prSkipped then st
             else { st with prSkipped := st.prSkipped ++ [prKey] }
  declineLinked h st1 ((lookupA prMap prKey).getD [])

/-- `autoDeclineLinkedHashes` from `pkg/approve`: mark every PR containing `h`
as skipped and decline every other hash linked to those PRs.  It never removes
anything from `approved`. -/
def autoDeclineLinkedHashes (h : String) (hashPrMap prMap : List (String × List String))
    (st : DecState) : DecState :=
  ((lookupA hashPrMap h).getD []).foldl (declinePr h prMap) st

/-- `promptActionForHash`, restricted to the decisive operator inputs
(`y`/`a` = approve, `n`/`d` = decline): approve inserts into `approved` and,
when `propagate` is set, auto-approves linked hashes; decline inserts into
`declined` and unconditionally runs decline propagation. -/
def promptActionForHash (h : String) (propagate : Bool) (a : OpAction)
    (hashPrMap prMap : List (String × List String)) (st : DecState) : DecState :=
  match a with
  | .approve =>
    let st1 := { st with approved := insertS h st.approved }
    if propagate then autoApproveLinkedHashes h hashPrMap prMap st1 else st1
  | .decline =>
    let st1 := { st with declined := insertS h st.declined }
    autoDeclineLinkedHashes h hashPrMap prMap st1

/-- One iteration of the `for idx, h := range hashes` loop of `ManualApproval`:
skip already-decided hashes, skip hashes of previously skipped PRs, auto-approve
duplicate-only hashes, otherwise record `firstSeen` and prompt. -/
def decisionStep (propagate : Bool) (changeMap hashPrMap prMap : List (String × List String))
    (act : String → OpAction) (st : DecState) (h : String) : DecState :=
  if h ∈ st.approved ∨ h ∈ st.declined then st
  else if ((lookupA hashPrMap h).getD []).any (fun prKey => decide (prKey ∈ st.prSkipped)) then st
  else if (isAllDuplicateApproved h changeMap st.firstSeen st.approved).1 then
    { st with approved := insertS h st.approved }
  else
    let st1 := match lookupA changeMap h with
               | some cs => { st with firstSeen := markFirstSeen h cs st.firstSeen }
               | none => st
    promptActionForHash h propagate (act h) hashPrMap prMap st1

/-- The decision pass of `ManualApproval` over the sorted hash list. -/
def manualApprovalPass (propagate : Bool)
    (changeMap hashPrMap prMap : List (String × List String))
    (act : String → OpAction) (hashes : List String) : DecState :=
  hashes.foldl (decisionStep propagate changeMap hashPrMap prMap act) emptyDecState

/-- `strings.EqualFold`, on the case folding the source relies on. -/
def eqFold (a b : String) : Bool := a.toLower == b.toLower

/-- The case-insensitive fallback of `collectHashesForUsers`: the first map
entry whose key matches case-insensitively (the Go loop breaks at the first
match). -/
def findFold {α : Type} : List (String × α) → String → Option α
  | [], _ => none
  | (k, v) :: rest, u => if eqFold k u then some v else findFold rest u

/-- Per-name hash selection of `collectHashesForUsers`: the exact-matching
key's hashes when present, otherwise the first case-insensitive match's. -/
def hashesOfUser (userHashPrMap : List (String × List (String × List String)))
    (u : String) : List String :=
  match lookupA userHashPrMap u with
  | some umap => umap.map Prod.fst
  | none =>
    match findFold userHashPrMap u with
    | some umap => umap.map Prod.fst
    | none => []

/-- `collectHashesForUsers`: split on commas, union the selected hash sets and
return them as a sorted duplicate-free list. -/
def collectHashesForUsers (user : String)
    (userHashPrMap : List (String × List (String × List String))) : List String :=
  (((user.splitOn ",").foldl (fun acc u => acc ++ hashesOfUser userHashPrMap u) []).dedup).insertionSort (· ≤ ·)

/-! ### Commit stage (`processApprovals` in `pkg/approve`) -/

/-- The `allApproved` loop: no hash declined, and — only when `approved` is
non-empty — every hash approved. -/
def prAllApproved (approved declined : List String) (phashes : List String) : Bool :=
  phashes.all fun ph =>
    !decide (ph ∈ declined) && (approved.isEmpty || decide (ph ∈ approved))

/-- The search for a PR object with the given HTML URL in `hashPrMap`. -/
def prFound (hashPrMap : List (String × List String)) (prKey : String) : Bool :=
  hashPrMap.any fun e => decide (prKey ∈ e.2)

/-- Whether `processApprovals` reaches the approve (or dry-run) call for one
`prMap` entry. -/
def prAttempt (approved declined prSkipped : List String)
    (hashPrMap : List (String × List String)) (e : String × List String) : Bool :=
  !e.2.isEmpty && !decide (e.1 ∈ prSkipped) && prAllApproved approved declined e.2 &&
    prFound hashPrMap e.1

/-- `processApprovals`: the PR keys, in `prMap` order, on which the approve
action (or its dry-run print) is attempted. -/
def processApprovals (prMap : List (String × List String))
    (approved declined prSkipped : List String)
    (hashPrMap : List (String × List String)) : List String :=
  prMap.foldl (fun acc e =>
    if prAttempt approved declined prSkipped hashPrMap e then acc ++ [e.1] else acc) []

/-! ### Theorems -/

theorem lookupA_setA_self {α : Type} (k : String) (v : α) (l : List (String × α)) :
    lookupA (setA k v l) k = some v := by
  induction l with
  | nil => simp [setA, lookupA]
  | cons kv rest ih =>
    obtain ⟨k', v'⟩ := kv
    by_cases h : k' = k
    · simp [setA, h, lookupA]
    · simp [setA, h, lookupA, ih]

theorem lookupA_setA_ne {α : Type} (k k' : String) (v : α) (l : List (String × α))
    (h : k' ≠ k) : lookupA (setA k v l) k' = lookupA l k' := by
  induction l with
  | nil => simp [setA, lookupA, Ne.symm h]
  | cons kv rest ih =>
    obtain ⟨k₀, v₀⟩ := kv
    by_cases hk : k₀ = k
    · subst hk
      simp only [setA, if_pos rfl, lookupA]
      rw [if_neg (Ne.symm h), if_neg (Ne.symm h)]
    · simp only [setA, if_neg hk, lookupA]
      by_cases hk' : k₀ = k'
      · simp [hk']
      · simp [hk', ih]

theorem lookupA_append_of_none {α : Type} (l₁ l₂ : List (String × α)) (k : String)
    (h : lookupA l₁ k = none) : lookupA (l₁ ++ l₂) k = lookupA l₂ k := by
  induction l₁ with
  | nil => simp
  | cons kv rest ih =>
    obtain ⟨k', v⟩ := kv
    by_cases hk : k' = k
    · simp [lookupA, hk] at h
    · simp only [lookupA, if_neg hk] at h
      simpa [lookupA, hk] using ih h

theorem lookupA_append_of_some {α : Type} (l₁ l₂ : List (String × α)) (k : String) (v : α)
    (h : lookupA l₁ k = some v) : lookupA (l₁ ++ l₂) k = some v := by
  induction l₁ with
  | nil => simp [lookupA] at h
  | cons kv rest ih =>
    obtain ⟨k', v'⟩ := kv
    by_cases hk : k' = k
    · simp only [lookupA, if_pos hk] at h
      simp [lookupA, hk, h]
    · simp only [lookupA, if_neg hk] at h
      simpa [lookupA, hk] using ih h

theorem splitHunksAux_ne_nil (lines : List String) : splitHunksAux lines ≠ [] := by
  cases lines with
  | nil => simp [splitHunksAux]
  | cons line rest =>
    by_cases h : hasPrefixS line "@@"
    · simp [splitHunksAux, h]
    · simp only [splitHunksAux, if_neg h]
      cases splitHunksAux rest <;> simp

theorem consHead_nil (segs : List (List String)) (h : segs ≠ []) :
    consHead [] segs = segs := by
  cases segs with
  | nil => exact absurd rfl h
  | cons seg segs => simp [consHead]

theorem specEmit_cons (digest : String → String) (hunk : List String)
    (hunks : List (List String)) :
    specEmit digest (hunk :: hunks) =
      (if hunk.filter (fun l => isChangeLine l) = [] then []
       else [digest (String.intercalate "\n" (hunk.filter fun l => isChangeLine l))]) ++
        specEmit digest hunks := by
  by_cases h : hunk.filter (fun l => isChangeLine l) = []
  · rw [specEmit, List.filterMap_cons_none (by simp only [hunkDigest, if_pos h]),
      if_pos h, List.nil_append, specEmit]
  · have hd : hunkDigest digest hunk =
        some (digest (String.intercalate "\n" (hunk.filter fun l => isChangeLine l))) := by
      simp only [hunkDigest, if_neg h]
    rw [specEmit, List.filterMap_cons_some hd, if_neg h, List.singleton_append, specEmit]

theorem getPrHashLoop_inHunk (digest : String → String) (lines : List String) :
    ∀ hunkLines hashes, (∀ l ∈ hunkLines, isChangeLine l = true) →
      getPrHashLoop digest lines hunkLines true hashes =
        hashes ++ specEmit digest (consHead hunkLines (splitHunksAux lines)) := by
  induction lines with
  | nil =>
    intro hunkLines hashes hall
    have hfilter : hunkLines.filter (fun l => isChangeLine l) = hunkLines :=
      List.filter_eq_self.mpr hall
    simp only [getPrHashLoop, splitHunksAux, consHead, List.append_nil, closeHunk]
    rw [specEmit_cons, hfilter]
    have hnil : specEmit digest [] = [] := by simp [specEmit]
    rw [hnil, List.append_nil]
    by_cases h : hunkLines = []
    · rw [if_pos h, if_pos h, List.append_nil]
    · rw [if_neg h, if_neg h]
  | cons line rest ih =>
    intro hunkLines hashes hall
    by_cases hdr : hasPrefixS line "@@"
    · have hne := splitHunksAux_ne_nil rest
      have hfilter : hunkLines.filter (fun l => isChangeLine l) = hunkLines :=
        List.filter_eq_self.mpr hall
      simp only [getPrHashLoop, if_pos hdr]
      rw [ih [] (closeHunk digest hashes hunkLines) (by simp), consHead_nil _ hne]
      simp only [splitHunksAux, if_pos hdr, consHead, List.append_nil, closeHunk]
      rw [specEmit_cons, hfilter]
      by_cases h : hunkLines = []
      · rw [if_pos h, if_pos h, List.nil_append]
      · rw [if_neg h, if_neg h, List.append_assoc]
    · by_cases hch : isChangeLine line = true
      · simp only [getPrHashLoop, if_neg hdr, Bool.true_and]
        rw [if_pos hch]
        have hall' : ∀ l ∈ hunkLines ++ [line], isChangeLine l = true := by
          intro l hl
          rcases List.mem_append.mp hl with h | h
          · exact hall l h
          · simp only [List.mem_singleton] at h; subst h; exact hch
        rw [ih (hunkLines ++ [line]) hashes hall']
        simp only [splitHunksAux, if_neg hdr]
        rcases hseg : splitHunksAux rest with _ | ⟨seg, segs⟩
        · exact absurd hseg (splitHunksAux_ne_nil rest)
        · simp only [consHead, List.append_assoc, List.singleton_append]
      · have hch' : isChangeLine line = false := by
          cases hc : isChangeLine line
          · rfl
          · exact absurd hc hch
        simp only [getPrHashLoop, if_neg hdr, Bool.true_and, hch']
        rw [if_neg Bool.false_ne_true]
        rw [ih hunkLines hashes hall]
        simp only [splitHunksAux, if_neg hdr]
        rcases hseg : splitHunksAux rest with _ | ⟨seg, segs⟩
        · exact absurd hseg (splitHunksAux_ne_nil rest)
        · simp only [consHead]
          rw [specEmit_cons, specEmit_cons]
          have hfe : (hunkLines ++ line :: seg).filter (fun l => isChangeLine l) =
              (hunkLines ++ seg).filter (fun l => isChangeLine l) := by
            rw [List.filter_append, List.filter_append, List.filter_cons_of_neg]
            simp [hch']
          rw [hfe]

theorem getPrHashLoop_preHunk (digest : String → String) (lines : List String) :
    ∀ hashes, getPrHashLoop digest lines [] false hashes =
      hashes ++ specEmit digest (specHunks lines) := by
  induction lines with
  | nil =>
    intro hashes
    simp [getPrHashLoop, closeHunk, specHunks, specEmit]
  | cons line rest ih =>
    intro hashes
    by_cases hdr : hasPrefixS line "@@"
    · have hclose : closeHunk digest hashes [] = hashes := by simp [closeHunk]
      simp only [getPrHashLoop, if_pos hdr, hclose]
      rw [getPrHashLoop_inHunk digest rest [] hashes (by simp),
        consHead_nil _ (splitHunksAux_ne_nil rest)]
      simp only [specHunks, if_pos hdr]
    · simp only [getPrHashLoop, if_neg hdr, Bool.false_and]
      rw [if_neg Bool.false_ne_true, ih hashes]
      simp only [specHunks, if_neg hdr]

theorem specHunks_of_no_header (lines : List String)
    (h : ∀ l ∈ lines, ¬ hasPrefixS l "@@") : specHunks lines = [] := by
  induction lines with
  | nil => simp [specHunks]
  | cons line rest ih =>
    have h1 : ¬ hasPrefixS line "@@" = true := h line (by simp)
    simp only [specHunks, if_neg h1]
    exact ih fun l hl => h l (List.mem_cons_of_mem _ hl)

/-- C4: for every unified-diff text, `getPrHash` returns exactly the
fingerprints of the reference algorithm (split at `@@` headers, accumulate the
`+`/`-` change lines that are not `+++`/`---` file headers, digest each hunk's
change lines joined by a newline, skipping hunks without change lines); in
particular a diff without `@@` lines yields an empty fingerprint list. -/
theorem getPrHash_eq_specFingerprints (digest : String → String) :
    (∀ diff : String, getPrHash digest diff = specFingerprints digest diff) ∧
      (∀ lines : List String, (∀ l ∈ lines, ¬ hasPrefixS l "@@") →
        getPrHashLines digest lines = []) := by
  constructor
  · intro diff
    rw [getPrHash, specFingerprints, getPrHashLines, getPrHashLoop_preHunk, List.nil_append]
  · intro lines hno
    rw [getPrHashLines, getPrHashLoop_preHunk, List.nil_append,
      specHunks_of_no_header _ hno]
    simp [specEmit]

theorem getPrHash_eq_specFingerprints_witness :
    getPrHash (fun s => s) "context\n+x" = specFingerprints (fun s => s) "context\n+x" ∧
      getPrHashLines (fun s => s) ["context", "+x"] = [] :=
  ⟨(getPrHash_eq_specFingerprints (fun s => s)).1 "context\n+x",
   (getPrHash_eq_specFingerprints (fun s => s)).2 ["context", "+x"] (by decide)⟩

/-! ### Duplicate collapse -/

theorem insertS_ne_nil (x : String) (s : List String) : insertS x s ≠ [] := by
  rw [insertS]
  by_cases h : x ∈ s
  · rw [if_pos h]
    exact List.ne_nil_of_mem h
  · rw [if_neg h]
    simp

theorem dupScan_eq_some_iff (h : String) (fs : List (String × String)) (ap : List String)
    (changes : List String) :
    (∃ os, dupScan h fs ap changes = some os) ↔
      ∀ line ∈ changes, ∃ f, lookupA fs line = some f ∧ f ≠ h ∧ f ∈ ap := by
  induction changes with
  | nil => simp [dupScan]
  | cons line rest ih =>
    constructor
    · rintro ⟨os, hos⟩
      rcases hlk : lookupA fs line with _ | f
      · simp only [dupScan, hlk] at hos
        exact Option.noConfusion hos
      · simp only [dupScan, hlk] at hos
        by_cases hfh : f = h
        · rw [if_pos hfh] at hos; cases hos
        · rw [if_neg hfh] at hos
          by_cases hfa : f ∉ ap
          · rw [if_pos hfa] at hos; cases hos
          · rw [if_neg hfa] at hos
            push_neg at hfa
            rcases hrest : dupScan h fs ap rest with _ | os'
            · rw [hrest] at hos; cases hos
            · intro l hl
              rcases List.mem_cons.mp hl with rfl | hl'
              · exact ⟨f, hlk, hfh, hfa⟩
              · exact (ih.mp ⟨os', hrest⟩) l hl'
    · intro hall
      obtain ⟨f, hlk, hfh, hfa⟩ := hall line (by simp)
      obtain ⟨os', hos'⟩ := ih.mpr fun l hl => hall l (List.mem_cons_of_mem _ hl)
      refine ⟨insertS f os', ?_⟩
      simp only [dupScan, hlk, hos', if_neg hfh, if_neg (not_not.mpr hfa)]

theorem dupScan_some_nil_iff (h : String) (fs : List (String × String)) (ap : List String)
    (changes : List String) (os : List String) (hos : dupScan h fs ap changes = some os) :
    os = [] ↔ changes = [] := by
  cases changes with
  | nil =>
    simp only [dupScan] at hos
    cases hos
    simp
  | cons line rest =>
    simp only [List.cons_ne_nil, iff_false]
    rcases hlk : lookupA fs line with _ | f
    · simp only [dupScan, hlk] at hos
      exact Option.noConfusion hos
    · simp only [dupScan, hlk] at hos
      by_cases hfh : f = h
      · rw [if_pos hfh] at hos; cases hos
      · rw [if_neg hfh] at hos
        by_cases hfa : f ∉ ap
        · rw [if_pos hfa] at hos; cases hos
        · rw [if_neg hfa] at hos
          rcases hrest : dupScan h fs ap rest with _ | os'
          · rw [hrest] at hos; cases hos
          · rw [hrest] at hos
            cases hos
            exact insertS_ne_nil f os'

/-- C5: `isAllDuplicateApproved` returns `true` for `h` iff `h` has a
non-empty recorded change-line list all of whose lines were first seen under
other hashes that are all currently approved; and if any change line's
originating hash is not approved, `h` is never collapsed. -/
theorem isAllDuplicateApproved_iff (h : String) (changeMap : List (String × List String))
    (firstSeen : List (String × String)) (approved : List String) :
    ((isAllDuplicateApproved h changeMap firstSeen approved).1 = true ↔
      ∃ cs, lookupA changeMap h = some cs ∧ cs ≠ [] ∧
        ∀ line ∈ cs, ∃ f, lookupA firstSeen line = some f ∧ f ≠ h ∧ f ∈ approved) ∧
    (∀ cs line f, lookupA changeMap h = some cs → line ∈ cs →
      lookupA firstSeen line = some f → f ∉ approved →
      (isAllDuplicateApproved h changeMap firstSeen approved).1 = false) := by
  have hiff : (isAllDuplicateApproved h changeMap firstSeen approved).1 = true ↔
      ∃ cs, lookupA changeMap h = some cs ∧ cs ≠ [] ∧
        ∀ line ∈ cs, ∃ f, lookupA firstSeen line = some f ∧ f ≠ h ∧ f ∈ approved := by
    rcases hcm : lookupA changeMap h with _ | cs
    · have heq : isAllDuplicateApproved h changeMap firstSeen approved = (false, []) := by
        simp only [isAllDuplicateApproved, hcm]
      rw [heq]
      constructor
      · intro hfalse; cases hfalse
      · rintro ⟨cs, hcs, -, -⟩
        exact Option.noConfusion hcs
    · rcases hscan : dupScan h firstSeen approved cs with _ | os
      · have heq : isAllDuplicateApproved h changeMap firstSeen approved = (false, []) := by
          simp only [isAllDuplicateApproved, hcm, hscan]
        rw [heq]
        constructor
        · intro hfalse; cases hfalse
        · rintro ⟨cs', hcs', -, hall⟩
          obtain rfl : cs = cs' := Option.some.inj hcs'
          obtain ⟨os, hos⟩ := (dupScan_eq_some_iff h firstSeen approved cs).mpr hall
          rw [hscan] at hos
          exact Option.noConfusion hos
      · by_cases hos : os = []
        · have heq : isAllDuplicateApproved h changeMap firstSeen approved = (false, []) := by
            simp only [isAllDuplicateApproved, hcm, hscan, if_pos hos]
          rw [heq]
          constructor
          · intro hfalse; cases hfalse
          · rintro ⟨cs', hcs', hne, -⟩
            obtain rfl : cs = cs' := Option.some.inj hcs'
            exact absurd ((dupScan_some_nil_iff h firstSeen approved cs os hscan).mp hos) hne
        · have heq : isAllDuplicateApproved h changeMap firstSeen approved =
              (true, os.insertionSort (· ≤ ·)) := by
            simp only [isAllDuplicateApproved, hcm, hscan, if_neg hos]
          rw [heq]
          constructor
          · intro _
            refine ⟨cs, rfl, ?_, ?_⟩
            · intro hcsnil
              exact hos ((dupScan_some_nil_iff h firstSeen approved cs os hscan).mpr hcsnil)
            · exact (dupScan_eq_some_iff h firstSeen approved cs).mp ⟨os, hscan⟩
          · intro _; rfl
  refine ⟨hiff, fun cs line f hcm hline hfs hfnot => ?_⟩
  rcases hb : (isAllDuplicateApproved h changeMap firstSeen approved).1 with _ | _
  · rfl
  · obtain ⟨cs', hcs', -, hall⟩ := hiff.mp hb
    rw [hcm] at hcs'
    obtain rfl : cs = cs' := Option.some.inj hcs'
    obtain ⟨f', hf', -, hf'ap⟩ := hall line hline
    rw [hfs] at hf'
    obtain rfl : f = f' := Option.some.inj hf'
    exact absurd hf'ap hfnot

theorem mem_insertS (y : String) (s : List String) (x : String) :
    x ∈ insertS y s ↔ x ∈ s ∨ x = y := by
  rw [insertS]
  by_cases h : y ∈ s
  · rw [if_pos h]
    constructor
    · exact Or.inl
    · rintro (hx | rfl)
      · exact hx
      · exact h
  · rw [if_neg h]
    simp [List.mem_append]

/-! ### Decline propagation -/

theorem declineLinked_cons (h lh : String) (rest : List String) (st : DecState) :
    declineLinked h st (lh :: rest) =
      declineLinked h
        (if lh = h then st
         else if lh ∈ st.declined then st
         else { st with declined := st.declined ++ [lh] }) rest := rfl

theorem declineLinked_fields (h : String) (linked : List String) :
    ∀ st : DecState,
      (declineLinked h st linked).approved = st.approved ∧
      (declineLinked h st linked).prSkipped = st.prSkipped ∧
      (declineLinked h st linked).firstSeen = st.firstSeen := by
  induction linked with
  | nil => intro st; exact ⟨rfl, rfl, rfl⟩
  | cons lh rest ih =>
    intro st
    rw [declineLinked_cons]
    split
    · exact ih st
    · split
      · exact ih st
      · exact ih _

theorem mem_declineLinked_declined (h : String) (linked : List String) :
    ∀ (st : DecState) (x : String),
      x ∈ (declineLinked h st linked).declined ↔
        x ∈ st.declined ∨ (x ∈ linked ∧ x ≠ h) := by
  induction linked with
  | nil => intro st x; simp [declineLinked]
  | cons lh rest ih =>
    intro st x
    rw [declineLinked_cons]
    by_cases h1 : lh = h
    · subst h1
      rw [if_pos rfl, ih st x]
      simp only [List.mem_cons]
      constructor
      · rintro (hx | ⟨hr, hne⟩)
        · exact Or.inl hx
        · exact Or.inr ⟨Or.inr hr, hne⟩
      · rintro (hx | ⟨hlh | hr, hne⟩)
        · exact Or.inl hx
        · exact absurd hlh hne
        · exact Or.inr ⟨hr, hne⟩
    · rw [if_neg h1]
      by_cases h2 : lh ∈ st.declined
      · rw [if_pos h2, ih st x]
        simp only [List.mem_cons]
        constructor
        · rintro (hx | ⟨hr, hne⟩)
          · exact Or.inl hx
          · exact Or.inr ⟨Or.inr hr, hne⟩
        · rintro (hx | ⟨rfl | hr, hne⟩)
          · exact Or.inl hx
          · exact Or.inl h2
          · exact Or.inr ⟨hr, hne⟩
      · rw [if_neg h2, ih _ x]
        simp only [List.mem_append, List.mem_cons, List.not_mem_nil, or_false]
        constructor
        · rintro ((hx | rfl) | ⟨hr, hne⟩)
          · exact Or.inl hx
          · exact Or.inr ⟨Or.inl rfl, h1⟩
          · exact Or.inr ⟨Or.inr hr, hne⟩
        · rintro (hx | ⟨rfl | hr, hne⟩)
          · exact Or.inl (Or.inl hx)
          · exact Or.inl (Or.inr rfl)
          · exact Or.inr ⟨hr, hne⟩

theorem declinePr_fields (h : String) (prMap : List (String × List String))
    (st : DecState) (prKey : String) :
    (declinePr h prMap st prKey).approved = st.approved ∧
    (declinePr h prMap st prKey).firstSeen = st.firstSeen := by
  rw [declinePr]
  obtain ⟨ha, -, hf⟩ := declineLinked_fields h ((lookupA prMap prKey).getD [])
    (if prKey ∈ st.prSkipped then st else { st with prSkipped := st.prSkipped ++ [prKey] })
  rw [ha, hf]
  split
  · exact ⟨rfl, rfl⟩
  · exact ⟨rfl, rfl⟩

theorem mem_declinePr_prSkipped (h : String) (prMap : List (String × List String))
    (st : DecState) (prKey : String) (x : String) :
    x ∈ (declinePr h prMap st prKey).prSkipped ↔ x ∈ st.prSkipped ∨ x = prKey := by
  rw [declinePr]
  obtain ⟨-, hs, -⟩ := declineLinked_fields h ((lookupA prMap prKey).getD [])
    (if prKey ∈ st.prSkipped then st else { st with prSkipped := st.prSkipped ++ [prKey] })
  rw [hs]
  by_cases hp : prKey ∈ st.prSkipped
  · rw [if_pos hp]
    constructor
    · exact Or.inl
    · rintro (hx | rfl)
      · exact hx
      · exact hp
  · rw [if_neg hp]
    simp [List.mem_append]

theorem mem_declinePr_declined (h : String) (prMap : List (String × List String))
    (st : DecState) (prKey : String) (x : String) :
    x ∈ (declinePr h prMap st prKey).declined ↔
      x ∈ st.declined ∨ (x ∈ (lookupA prMap prKey).getD [] ∧ x ≠ h) := by
  rw [declinePr, mem_declineLinked_declined]
  split
  · exact Iff.rfl
  · exact Iff.rfl

theorem foldl_declinePr_fields (h : String) (prMap : List (String × List String))
    (prs : List String) :
    ∀ st : DecState,
      (prs.foldl (declinePr h prMap) st).approved = st.approved ∧
      (prs.foldl (declinePr h prMap) st).firstSeen = st.firstSeen := by
  induction prs with
  | nil => intro st; exact ⟨rfl, rfl⟩
  | cons prKey rest ih =>
    intro st
    rw [List.foldl_cons]
    obtain ⟨ha, hf⟩ := ih (declinePr h prMap st prKey)
    obtain ⟨ha', hf'⟩ := declinePr_fields h prMap st prKey
    exact ⟨ha.trans ha', hf.trans hf'⟩

theorem mem_foldl_declinePr_prSkipped (h : String) (prMap : List (String × List String))
    (prs : List String) :
    ∀ (st : DecState) (x : String),
      x ∈ (prs.foldl (declinePr h prMap) st).prSkipped ↔
        x ∈ st.prSkipped ∨ x ∈ prs := by
  induction prs with
  | nil => intro st x; simp
  | cons prKey rest ih =>
    intro st x
    rw [List.foldl_cons, ih, mem_declinePr_prSkipped]
    simp only [List.mem_cons]
    constructor
    · rintro ((hx | rfl) | hr)
      · exact Or.inl hx
      · exact Or.inr (Or.inl rfl)
      · exact Or.inr (Or.inr hr)
    · rintro (hx | (rfl | hr))
      · exact Or.inl (Or.inl hx)
      · exact Or.inl (Or.inr rfl)
      · exact Or.inr hr

theorem mem_foldl_declinePr_declined (h : String) (prMap : List (String × List String))
    (prs : List String) :
    ∀ (st : DecState) (x : String),
      x ∈ (prs.foldl (declinePr h prMap) st).declined ↔
        x ∈ st.declined ∨ ∃ prKey ∈ prs, x ∈ (lookupA prMap prKey).getD [] ∧ x ≠ h := by
  induction prs with
  | nil => intro st x; simp
  | cons prKey rest ih =>
    intro st x
    rw [List.foldl_cons, ih, mem_declinePr_declined]
    simp only [List.mem_cons]
    constructor
    · rintro ((hx | ⟨hmem, hne⟩) | ⟨pk, hpk, hmem, hne⟩)
      · exact Or.inl hx
      · exact Or.inr ⟨prKey, Or.inl rfl, hmem, hne⟩
      · exact Or.inr ⟨pk, Or.inr hpk, hmem, hne⟩
    · rintro (hx | ⟨pk, rfl | hpk, hmem, hne⟩)
      · exact Or.inl (Or.inl hx)
      · exact Or.inl (Or.inr ⟨hmem, hne⟩)
      · exact Or.inr ⟨pk, hpk, hmem, hne⟩

/-- C6: when the operator declines `h` (whatever the propagate flag), `h` is
declined, every PR whose PR list contains `h` is marked skipped, and every hash
linked to any of those PRs through the PR→fingerprints index is declined. -/
theorem declineAction_propagates (h : String) (propagate : Bool)
    (hashPrMap prMap : List (String × List String)) (st : DecState) :
    h ∈ (promptActionForHash h propagate .decline hashPrMap prMap st).declined ∧
    ∀ prKey ∈ (lookupA hashPrMap h).getD [],
      prKey ∈ (promptActionForHash h propagate .decline hashPrMap prMap st).prSkipped ∧
      ∀ lh ∈ (lookupA prMap prKey).getD [],
        lh ∈ (promptActionForHash h propagate .decline hashPrMap prMap st).declined := by
  have hstep : promptActionForHash h propagate .decline hashPrMap prMap st =
      ((lookupA hashPrMap h).getD []).foldl (declinePr h prMap)
        { st with declined := insertS h st.declined } := rfl
  refine ⟨?_, fun prKey hpr => ⟨?_, fun lh hlh => ?_⟩⟩
  · rw [hstep, mem_foldl_declinePr_declined]
    exact Or.inl ((mem_insertS h st.declined h).mpr (Or.inr rfl))
  · rw [hstep, mem_foldl_declinePr_prSkipped]
    exact Or.inr hpr
  · rw [hstep, mem_foldl_declinePr_declined]
    by_cases hlh' : lh = h
    · subst hlh'
      exact Or.inl ((mem_insertS lh st.declined lh).mpr (Or.inr rfl))
    · exact Or.inr ⟨prKey, hpr, hlh, hlh'⟩

theorem declineAction_propagates_witness :
    "p2" ∈ (promptActionForHash "h3" true .decline [("h3", ["p2"])]
      [("p2", ["h3", "h4"])] emptyDecState).prSkipped ∧
    "h4" ∈ (promptActionForHash "h3" true .decline [("h3", ["p2"])]
      [("p2", ["h3", "h4"])] emptyDecState).declined := by
  have happ := declineAction_propagates "h3" true [("h3", ["p2"])]
    [("p2", ["h3", "h4"])] emptyDecState
  have h1 := happ.2 "p2" (by decide)
  exact ⟨h1.1, h1.2 "h4" (by decide)⟩

/-! ### Approve propagation -/

theorem approveLinked_cons (h lh : String) (rest : List String) (st : DecState) :
    approveLinked h st (lh :: rest) =
      approveLinked h
        (if lh = h then st
         else if lh ∉ st.approved ∧ lh ∉ st.declined then
           { st with approved := st.approved ++ [lh] }
         else st) rest := rfl

theorem approveLinked_fields (h : String) (linked : List String) :
    ∀ st : DecState,
      (approveLinked h st linked).declined = st.declined ∧
      (approveLinked h st linked).prSkipped = st.prSkipped ∧
      (approveLinked h st linked).firstSeen = st.firstSeen := by
  induction linked with
  | nil => intro st; exact ⟨rfl, rfl, rfl⟩
  | cons lh rest ih =>
    intro st
    rw [approveLinked_cons]
    split
    · exact ih st
    · split
      · exact ih _
      · exact ih st

theorem mem_approveLinked_approved (h : String) (linked : List String) :
    ∀ (st : DecState) (x : String),
      x ∈ (approveLinked h st linked).approved ↔
        x ∈ st.approved ∨ (x ∈ linked ∧ x ≠ h ∧ x ∉ st.declined) := by
  induction linked with
  | nil => intro st x; simp [approveLinked]
  | cons lh rest ih =>
    intro st x
    rw [approveLinked_cons]
    by_cases h1 : lh = h
    · subst h1
      rw [if_pos rfl, ih st x]
      simp only [List.mem_cons]
      constructor
      · rintro (hx | ⟨hr, hne, hd⟩)
        · exact Or.inl hx
        · exact Or.inr ⟨Or.inr hr, hne, hd⟩
      · rintro (hx | ⟨hlh | hr, hne, hd⟩)
        · exact Or.inl hx
        · exact absurd hlh hne
        · exact Or.inr ⟨hr, hne, hd⟩
    · rw [if_neg h1]
      by_cases h2 : lh ∉ st.approved ∧ lh ∉ st.declined
      · rw [if_pos h2, ih _ x]
        simp only [List.mem_append, List.mem_cons, List.not_mem_nil, or_false]
        constructor
        · rintro ((hx | rfl) | ⟨hr, hne, hd⟩)
          · exact Or.inl hx
          · exact Or.inr ⟨Or.inl rfl, h1, h2.2⟩
          · exact Or.inr ⟨Or.inr hr, hne, hd⟩
        · rintro (hx | ⟨rfl | hr, hne, hd⟩)
          · exact Or.inl (Or.inl hx)
          · exact Or.inl (Or.inr rfl)
          · exact Or.inr ⟨hr, hne, hd⟩
      · rw [if_neg h2, ih st x]
        simp only [List.mem_cons]
        rw [not_and_or, not_not, not_not] at h2
        constructor
        · rintro (hx | ⟨hr, hne, hd⟩)
          · exact Or.inl hx
          · exact Or.inr ⟨Or.inr hr, hne, hd⟩
        · rintro (hx | ⟨rfl | hr, hne, hd⟩)
          · exact Or.inl hx
          · rcases h2 with h2 | h2
            · exact Or.inl h2
            · exact absurd h2 hd
          · exact Or.inr ⟨hr, hne, hd⟩

theorem approvePr_fields (h : String) (prMap : List (String × List String))
    (st : DecState) (prKey : String) :
    (approvePr h prMap st prKey).declined = st.declined ∧
    (approvePr h prMap st prKey).prSkipped = st.prSkipped ∧
    (approvePr h prMap st prKey).firstSeen = st.firstSeen :=
  approveLinked_fields h ((lookupA prMap prKey).getD []) st

theorem mem_approvePr_approved (h : String) (prMap : List (String × List String))
    (st : DecState) (prKey : String) (x : String) :
    x ∈ (approvePr h prMap st prKey).approved ↔
      x ∈ st.approved ∨ (x ∈ (lookupA prMap prKey).getD [] ∧ x ≠ h ∧ x ∉ st.declined) :=
  mem_approveLinked_approved h ((lookupA prMap prKey).getD []) st x

theorem foldl_approvePr_fields (h : String) (prMap : List (String × List String))
    (prs : List String) :
    ∀ st : DecState,
      (prs.foldl (approvePr h prMap) st).declined = st.declined ∧
      (prs.foldl (approvePr h prMap) st).prSkipped = st.prSkipped ∧
      (prs.foldl (approvePr h prMap) st).firstSeen = st.firstSeen := by
  induction prs with
  | nil => intro st; exact ⟨rfl, rfl, rfl⟩
  | cons prKey rest ih =>
    intro st
    rw [List.foldl_cons]
    obtain ⟨hd, hs, hf⟩ := ih (approvePr h prMap st prKey)
    obtain ⟨hd', hs', hf'⟩ := approvePr_fields h prMap st prKey
    exact ⟨hd.trans hd', hs.trans hs', hf.trans hf'⟩

theorem mem_foldl_approvePr_approved (h : String) (prMap : List (String × List String))
    (prs : List String) :
    ∀ (st : DecState) (x : String),
      x ∈ (prs.foldl (approvePr h prMap) st).approved ↔
        x ∈ st.approved ∨
          ∃ prKey ∈ prs, x ∈ (lookupA prMap prKey).getD [] ∧ x ≠ h ∧ x ∉ st.declined := by
  induction prs with
  | nil => intro st x; simp
  | cons prKey rest ih =>
    intro st x
    rw [List.foldl_cons, ih, mem_approvePr_approved,
      (approvePr_fields h prMap st prKey).1]
    simp only [List.mem_cons]
    constructor
    · rintro ((hx | ⟨hmem, hne, hd⟩) | ⟨pk, hpk, hmem, hne, hd⟩)
      · exact Or.inl hx
      · exact Or.inr ⟨prKey, Or.inl rfl, hmem, hne, hd⟩
      · exact Or.inr ⟨pk, Or.inr hpk, hmem, hne, hd⟩
    · rintro (hx | ⟨pk, rfl | hpk, hmem, hne, hd⟩)
      · exact Or.inl (Or.inl hx)
      · exact Or.inl (Or.inr ⟨hmem, hne, hd⟩)
      · exact Or.inr ⟨pk, hpk, hmem, hne, hd⟩

/-- C7: approving `h` puts `h` into `approved`, never touches `declined` or
`prSkipped`; with the propagate flag set, every pending hash linked to `h`
through a shared PR is auto-approved; without it, only `h` is added; and a
declined sibling is never moved into `approved` in either mode. -/
theorem approveAction_propagation (h : String) (propagate : Bool)
    (hashPrMap prMap : List (String × List String)) (st : DecState) :
    h ∈ (promptActionForHash h propagate .approve hashPrMap prMap st).approved ∧
    (promptActionForHash h propagate .approve hashPrMap prMap st).declined = st.declined ∧
    (promptActionForHash h propagate .approve hashPrMap prMap st).prSkipped = st.prSkipped ∧
    (propagate = false →
      (promptActionForHash h propagate .approve hashPrMap prMap st).approved =
        insertS h st.approved) ∧
    (propagate = true →
      ∀ prKey ∈ (lookupA hashPrMap h).getD [], ∀ lh ∈ (lookupA prMap prKey).getD [],
        lh ∉ st.approved → lh ∉ st.declined →
        lh ∈ (promptActionForHash h propagate .approve hashPrMap prMap st).approved) ∧
    (∀ lh, lh ≠ h → lh ∈ st.declined →
      (lh ∈ (promptActionForHash h propagate .approve hashPrMap prMap st).approved ↔
        lh ∈ st.approved)) := by
  cases propagate with
  | false =>
    refine ⟨(mem_insertS h st.approved h).mpr (Or.inr rfl), rfl, rfl, fun _ => rfl,
      fun hcontra => Bool.noConfusion hcontra, fun lh hne _ => ?_⟩
    show lh ∈ insertS h st.approved ↔ lh ∈ st.approved
    rw [mem_insertS]
    constructor
    · rintro (hx | rfl)
      · exact hx
      · exact absurd rfl hne
    · exact Or.inl
  | true =>
    have hstep : promptActionForHash h true .approve hashPrMap prMap st =
        ((lookupA hashPrMap h).getD []).foldl (approvePr h prMap)
          { st with approved := insertS h st.approved } := rfl
    obtain ⟨hd, hs, -⟩ := foldl_approvePr_fields h prMap ((lookupA hashPrMap h).getD [])
      { st with approved := insertS h st.approved }
    refine ⟨?_, by rw [hstep]; exact hd, by rw [hstep]; exact hs,
      fun hcontra => Bool.noConfusion hcontra,
      fun _ prKey hpr lh hlh hla hld => ?_, fun lh hne hld => ?_⟩
    · rw [hstep, mem_foldl_approvePr_approved]
      exact Or.inl ((mem_insertS h st.approved h).mpr (Or.inr rfl))
    · rw [hstep, mem_foldl_approvePr_approved]
      by_cases hlh' : lh = h
      · subst hlh'
        exact Or.inl ((mem_insertS lh st.approved lh).mpr (Or.inr rfl))
      · exact Or.inr ⟨prKey, hpr, hlh, hlh', hld⟩
    · rw [hstep, mem_foldl_approvePr_approved, mem_insertS]
      constructor
      · rintro ((hx | rfl) | ⟨pk, -, -, -, hd'⟩)
        · exact hx
        · exact absurd rfl hne
        · exact absurd hld hd'
      · intro hx
        exact Or.inl (Or.inl hx)

theorem approveAction_propagation_witness :
    "h2" ∈ (promptActionForHash "h1" true .approve [("h1", ["p1"])]
      [("p1", ["h1", "h2"])] emptyDecState).approved ∧
    (promptActionForHash "h1" false .approve [("h1", ["p1"])]
      [("p1", ["h1", "h2"])] emptyDecState).approved = insertS "h1" [] := by
  have h1 := approveAction_propagation "h1" true [("h1", ["p1"])]
    [("p1", ["h1", "h2"])] emptyDecState
  have h2 := approveAction_propagation "h1" false [("h1", ["p1"])]
    [("p1", ["h1", "h2"])] emptyDecState
  exact ⟨h1.2.2.2.2.1 rfl "p1" (by decide) "h2" (by decide) (by decide) (by decide),
    h2.2.2.2.1 rfl⟩

theorem isAllDuplicateApproved_iff_witness :
    (isAllDuplicateApproved "h2" [("h2", ["a"])] [("a", "h1")] ["h1"]).1 = true ∧
      (isAllDuplicateApproved "h2" [("h2", ["a"])] [("a", "h0")] []).1 = false :=
  ⟨(isAllDuplicateApproved_iff "h2" [("h2", ["a"])] [("a", "h1")] ["h1"]).1.mpr
      ⟨["a"], by decide, by decide, fun line hl => by
        have hla : line = "a" := by simpa using hl
        subst hla
        exact ⟨"h1", by decide, by decide, by decide⟩⟩,
   (isAllDuplicateApproved_iff "h2" [("h2", ["a"])] [("a", "h0")] []).2
      ["a"] "a" "h0" (by decide) (by decide) (by decide) (by decide)⟩

/-! ### Commit stage -/

theorem foldl_attempt_eq (p : String × List String → Bool) (l : List (String × List String)) :
    ∀ acc : List String,
      l.foldl (fun acc e => if p e then acc ++ [e.1] else acc) acc =
        acc ++ (l.filter p).map Prod.fst := by
  induction l with
  | nil => intro acc; simp
  | cons e rest ih =>
    intro acc
    rw [List.foldl_cons]
    by_cases hp : p e = true
    · rw [if_pos hp, ih, List.filter_cons_of_pos hp, List.map_cons, List.append_assoc,
        List.singleton_append]
    · rw [if_neg hp, ih, List.filter_cons_of_neg hp]

theorem processApprovals_eq (prMap : List (String × List String))
    (approved declined prSkipped : List String) (hashPrMap : List (String × List String)) :
    processApprovals prMap approved declined prSkipped hashPrMap =
      (prMap.filter (prAttempt approved declined prSkipped hashPrMap)).map Prod.fst := by
  rw [processApprovals, foldl_attempt_eq, List.nil_append]

theorem lookupA_eq_some_iff_mem {α : Type} (l : List (String × α)) (k : String) (v : α)
    (hnd : (l.map Prod.fst).Nodup) : lookupA l k = some v ↔ (k, v) ∈ l := by
  induction l with
  | nil => simp [lookupA]
  | cons kv rest ih =>
    obtain ⟨k', v'⟩ := kv
    rw [List.map_cons, List.nodup_cons] at hnd
    by_cases hk : k' = k
    · subst hk
      have hlk : lookupA ((k', v') :: rest) k' = some v' := by simp [lookupA]
      rw [hlk]
      simp only [List.mem_cons, Option.some.injEq, Prod.mk.injEq]
      constructor
      · rintro rfl
        exact Or.inl ⟨trivial, rfl⟩
      · rintro (⟨-, rfl⟩ | hmem)
        · rfl
        · exact absurd (List.mem_map_of_mem Prod.fst hmem) hnd.1
    · simp only [lookupA, if_neg hk, List.mem_cons, Prod.mk.injEq]
      rw [ih hnd.2]
      constructor
      · exact Or.inr
      · rintro (⟨rfl, -⟩ | hmem)
        · exact absurd rfl hk
        · exact hmem

theorem mem_processApprovals (prMap : List (String × List String))
    (approved declined prSkipped : List String) (hashPrMap : List (String × List String))
    (prKey : String) (hnd : (prMap.map Prod.fst).Nodup) :
    prKey ∈ processApprovals prMap approved declined prSkipped hashPrMap ↔
      ∃ phashes, lookupA prMap prKey = some phashes ∧
        prAttempt approved declined prSkipped hashPrMap (prKey, phashes) = true := by
  rw [processApprovals_eq]
  simp only [List.mem_map, List.mem_filter]
  constructor
  · rintro ⟨⟨k, v⟩, ⟨hmem, hatt⟩, rfl⟩
    exact ⟨v, (lookupA_eq_some_iff_mem _ _ _ hnd).mpr hmem, hatt⟩
  · rintro ⟨v, hlk, hatt⟩
    exact ⟨(prKey, v), ⟨(lookupA_eq_some_iff_mem _ _ _ hnd).mp hlk, hatt⟩, rfl⟩

theorem isEmptyS_false_iff (l : List String) : l.isEmpty = false ↔ l ≠ [] := by
  cases l <;> simp

theorem isEmptyS_true_iff (l : List String) : l.isEmpty = true ↔ l = [] := by
  cases l <;> simp

theorem prAttempt_iff (approved declined prSkipped : List String)
    (hashPrMap : List (String × List String)) (prKey : String) (phashes : List String) :
    prAttempt approved declined prSkipped hashPrMap (prKey, phashes) = true ↔
      phashes ≠ [] ∧ prKey ∉ prSkipped ∧
        (∀ ph ∈ phashes, ph ∉ declined ∧ (approved = [] ∨ ph ∈ approved)) ∧
        prFound hashPrMap prKey = true := by
  simp only [prAttempt, prAllApproved, Bool.and_eq_true, Bool.not_eq_true',
    decide_eq_false_iff_not, isEmptyS_false_iff, List.all_eq_true, Bool.or_eq_true,
    isEmptyS_true_iff, decide_eq_true_eq, and_assoc]

/-- C3 counterexample: with an empty `approved` map (and nothing declined or
skipped), `processApprovals` does attempt the approve action — the
`len(approved) > 0` guard skips the membership check instead of making the PR
ineligible. -/
theorem processApprovals_empty_approved_cex :
    processApprovals [("p", ["h"])] [] [] [] [("h", ["p"])] = ["p"] := by decide

/-- C3 (amended): for a `prMap` entry with non-empty hash list (and PR objects
present in `hashPrMap` for every indexed PR), the approve action is attempted
iff the PR is not skipped, none of its hashes is declined, and *either* the
`approved` map is empty *or* every hash of the PR is in `approved`. -/
theorem processApprovals_eligibility (prMap : List (String × List String))
    (approved declined prSkipped : List String) (hashPrMap : List (String × List String))
    (prKey : String) (phashes : List String)
    (hnd : (prMap.map Prod.fst).Nodup)
    (hfound : ∀ e ∈ prMap, prFound hashPrMap e.1 = true)
    (hlk : lookupA prMap prKey = some phashes) (hne : phashes ≠ []) :
    prKey ∈ processApprovals prMap approved declined prSkipped hashPrMap ↔
      prKey ∉ prSkipped ∧ (∀ ph ∈ phashes, ph ∉ declined) ∧
        (approved = [] ∨ ∀ ph ∈ phashes, ph ∈ approved) := by
  rw [mem_processApprovals _ _ _ _ _ _ hnd]
  constructor
  · rintro ⟨v, hlk', hatt⟩
    rw [hlk] at hlk'
    obtain rfl : phashes = v := Option.some.inj hlk'
    obtain ⟨-, hskip, hall, -⟩ := (prAttempt_iff _ _ _ _ _ _).mp hatt
    refine ⟨hskip, fun ph hph => (hall ph hph).1, ?_⟩
    by_cases ha : approved = []
    · exact Or.inl ha
    · refine Or.inr fun ph hph => ?_
      rcases (hall ph hph).2 with h | h
      · exact absurd h ha
      · exact h
  · rintro ⟨hskip, hdec, happ⟩
    refine ⟨phashes, hlk, (prAttempt_iff _ _ _ _ _ _).mpr
      ⟨hne, hskip, fun ph hph => ⟨hdec ph hph, ?_⟩,
        hfound (prKey, phashes) ((lookupA_eq_some_iff_mem _ _ _ hnd).mp hlk)⟩⟩
    rcases happ with h | h
    · exact Or.inl h
    · exact Or.inr (h ph hph)

theorem processApprovals_eligibility_witness :
    "p" ∈ processApprovals [("p", ["h"])] ["h"] [] [] [("h", ["p"])] :=
  (processApprovals_eligibility [("p", ["h"])] ["h"] [] [] [("h", ["p"])] "p" ["h"]
    (by decide) (by decide) (by decide) (by decide)).mpr
    ⟨by decide, by decide, Or.inr (by decide)⟩

/-! ### The approved/declined overlap (decline propagation does not undo an
earlier approval) -/

/-- C1 counterexample: operator approves `h1`, then declines `h2`; both hashes
share the pull request `p`, so decline propagation marks `h1` declined without
removing it from `approved` — after the pass `h1` is a key of both maps. -/
theorem approved_declined_overlap_cex :
    "h1" ∈ (manualApprovalPass false
        [("h1", ["a"]), ("h2", ["b"])] [("h1", ["p"]), ("h2", ["p"])] [("p", ["h1", "h2"])]
        (fun h => if h = "h1" then .approve else .decline) ["h1", "h2"]).approved ∧
    "h1" ∈ (manualApprovalPass false
        [("h1", ["a"]), ("h2", ["b"])] [("h1", ["p"]), ("h2", ["p"])] [("p", ["h1", "h2"])]
        (fun h => if h = "h1" then .approve else .decline) ["h1", "h2"]).declined := by
  decide

/-- C1 (amended): a fingerprint can be in `approved` and `declined` at once
(decline propagation inserts into `declined` without removing from `approved`);
the overlap is harmless at commit time because any PR one of whose hashes is
declined is never attempted by `processApprovals`. -/
theorem declined_hash_blocks_commit (prMap : List (String × List String))
    (approved declined prSkipped : List String) (hashPrMap : List (String × List String))
    (prKey : String) (phashes : List String) (ph : String)
    (hnd : (prMap.map Prod.fst).Nodup)
    (hlk : lookupA prMap prKey = some phashes) (hph : ph ∈ phashes)
    (hdec : ph ∈ declined) :
    prKey ∉ processApprovals prMap approved declined prSkipped hashPrMap := by
  intro hmem
  obtain ⟨v, hlk', hatt⟩ := (mem_processApprovals _ _ _ _ _ _ hnd).mp hmem
  rw [hlk] at hlk'
  obtain rfl : phashes = v := Option.some.inj hlk'
  obtain ⟨-, -, hall, -⟩ := (prAttempt_iff _ _ _ _ _ _).mp hatt
  exact (hall ph hph).1 hdec

theorem declined_hash_blocks_commit_witness :
    "p" ∉ processApprovals [("p", ["h1", "h2"])] ["h1", "h2"] ["h2"] [] [("h1", ["p"])] :=
  declined_hash_blocks_commit [("p", ["h1", "h2"])] ["h1", "h2"] ["h2"] [] [("h1", ["p"])]
    "p" ["h1", "h2"] "h2" (by decide) (by decide) (by decide) (by decide)

/-! ### Collector failure policy -/

/-- C2 (code bug): when any single notification's resolution fails, the source
returns `nil, nil, nil, nil, nil` — the indices are all nil (no partial result)
but the error of `eg.Wait()` is dropped, so the failure is *not* surfaced to
the caller: the returned error component is `none`. -/
theorem resolutionFailure_swallowed (rs : List NotifResult)
    (hfail : rs.any NotifResult.isFail = true) :
    getPrReviewRequested (Except.ok rs) = (none, none) := by
  simp only [getPrReviewRequested, if_pos hfail]

theorem resolutionFailure_swallowed_witness :
    getPrReviewRequested (Except.ok [NotifResult.fail "diff fetch failed"]) = (none, none) :=
  resolutionFailure_swallowed [NotifResult.fail "diff fetch failed"] (by decide)

/-! ### Merge idempotence -/

theorem mergeUserHash_fields (user prKey h : String) (st : Indices) :
    (mergeUserHash user prKey h st).hashChangeMap = st.hashChangeMap ∧
    (mergeUserHash user prKey h st).hashPrMap = st.hashPrMap ∧
    (mergeUserHash user prKey h st).prHashMap = st.prHashMap := by
  simp only [mergeUserHash]
  split
  · exact ⟨rfl, rfl, rfl⟩
  · exact ⟨rfl, rfl, rfl⟩

theorem mergeGlobalHash_fields (prKey h : String) (st : Indices) :
    (mergeGlobalHash prKey h st).userHashPrMap = st.userHashPrMap ∧
    (mergeGlobalHash prKey h st).hashChangeMap = st.hashChangeMap ∧
    (mergeGlobalHash prKey h st).prHashMap = st.prHashMap := by
  simp only [mergeGlobalHash]
  split
  · exact ⟨rfl, rfl, rfl⟩
  · exact ⟨rfl, rfl, rfl⟩

theorem mergePrHash_fields (prKey h : String) (st : Indices) :
    (mergePrHash prKey h st).userHashPrMap = st.userHashPrMap ∧
    (mergePrHash prKey h st).hashChangeMap = st.hashChangeMap ∧
    (mergePrHash prKey h st).hashPrMap = st.hashPrMap := by
  simp only [mergePrHash]
  split
  · exact ⟨rfl, rfl, rfl⟩
  · exact ⟨rfl, rfl, rfl⟩

theorem mergeUserHash_done (user prKey h : String) (st : Indices) :
    prKey ∈ (lookupA ((lookupA (mergeUserHash user prKey h st).userHashPrMap user).getD []) h).getD [] := by
  simp only [mergeUserHash]
  split
  · assumption
  · rw [lookupA_setA_self]
    simp only [Option.getD_some]
    rw [lookupA_setA_self]
    simp [List.mem_append]

theorem mergeUserHash_mono (user prKey h h' : String) (st : Indices)
    (hd : prKey ∈ (lookupA ((lookupA st.userHashPrMap user).getD []) h').getD []) :
    prKey ∈ (lookupA ((lookupA (mergeUserHash user prKey h st).userHashPrMap user).getD []) h').getD [] := by
  simp only [mergeUserHash]
  split
  · exact hd
  · rw [lookupA_setA_self]
    simp only [Option.getD_some]
    by_cases hh : h' = h
    · subst hh
      rw [lookupA_setA_self]
      simp [List.mem_append]
    · rw [lookupA_setA_ne _ _ _ _ hh]
      exact hd

theorem mergeUserHash_user_present (user prKey h : String) (st : Indices)
    (hu : lookupA st.userHashPrMap user ≠ none) :
    lookupA (mergeUserHash user prKey h st).userHashPrMap user ≠ none := by
  simp only [mergeUserHash]
  split
  · exact hu
  · rw [lookupA_setA_self]
    simp

theorem mergeUserHash_id (user prKey h : String) (st : Indices)
    (hd : prKey ∈ (lookupA ((lookupA st.userHashPrMap user).getD []) h).getD []) :
    mergeUserHash user prKey h st = st := by
  simp only [mergeUserHash]
  rw [if_pos hd]

theorem mergeGlobalHash_done (prKey h : String) (st : Indices) :
    prKey ∈ (lookupA (mergeGlobalHash prKey h st).hashPrMap h).getD [] := by
  simp only [mergeGlobalHash]
  split
  · assumption
  · rw [lookupA_setA_self]
    simp [List.mem_append]

theorem mergeGlobalHash_mono (prKey h h' : String) (st : Indices)
    (hd : prKey ∈ (lookupA st.hashPrMap h').getD []) :
    prKey ∈ (lookupA (mergeGlobalHash prKey h st).hashPrMap h').getD [] := by
  simp only [mergeGlobalHash]
  split
  · exact hd
  · by_cases hh : h' = h
    · subst hh
      rw [lookupA_setA_self]
      simp [List.mem_append]
    · rw [lookupA_setA_ne _ _ _ _ hh]
      exact hd

theorem mergeGlobalHash_id (prKey h : String) (st : Indices)
    (hd : prKey ∈ (lookupA st.hashPrMap h).getD []) :
    mergeGlobalHash prKey h st = st := by
  simp only [mergeGlobalHash]
  rw [if_pos hd]

theorem mergePrHash_done (prKey h : String) (st : Indices) :
    h ∈ (lookupA (mergePrHash prKey h st).prHashMap prKey).getD [] := by
  simp only [mergePrHash]
  split
  · assumption
  · rw [lookupA_setA_self]
    simp [List.mem_append]

theorem mergePrHash_mono (prKey h h' : String) (st : Indices)
    (hd : h' ∈ (lookupA st.prHashMap prKey).getD []) :
    h' ∈ (lookupA (mergePrHash prKey h st).prHashMap prKey).getD [] := by
  simp only [mergePrHash]
  split
  · exact hd
  · rw [lookupA_setA_self]
    simp only [Option.getD_some]
    exact List.mem_append.mpr (Or.inl hd)

theorem mergePrHash_id (prKey h : String) (st : Indices)
    (hd : h ∈ (lookupA st.prHashMap prKey).getD []) :
    mergePrHash prKey h st = st := by
  simp only [mergePrHash]
  rw [if_pos hd]

theorem mergeHash_done (user prKey : String) (st : Indices) (h : String) :
    hashDone user prKey (mergeHash user prKey st h) h := by
  rw [mergeHash]
  refine ⟨?_, ?_, ?_⟩
  · rw [(mergePrHash_fields _ _ _).1, (mergeGlobalHash_fields _ _ _).1]
    exact mergeUserHash_done user prKey h st
  · rw [(mergePrHash_fields _ _ _).2.2]
    exact mergeGlobalHash_done prKey h _
  · exact mergePrHash_done prKey h _

theorem mergeHash_mono (user prKey : String) (st : Indices) (h h' : String)
    (hd : hashDone user prKey st h') : hashDone user prKey (mergeHash user prKey st h) h' := by
  obtain ⟨h1, h2, h3⟩ := hd
  rw [mergeHash]
  refine ⟨?_, ?_, ?_⟩
  · rw [(mergePrHash_fields _ _ _).1, (mergeGlobalHash_fields _ _ _).1]
    exact mergeUserHash_mono user prKey h h' st h1
  · rw [(mergePrHash_fields _ _ _).2.2]
    apply mergeGlobalHash_mono
    rw [(mergeUserHash_fields _ _ _ _).2.1]
    exact h2
  · apply mergePrHash_mono
    rw [(mergeGlobalHash_fields _ _ _).2.2, (mergeUserHash_fields _ _ _ _).2.2]
    exact h3

theorem mergeHash_user_present (user prKey : String) (st : Indices) (h : String)
    (hu : lookupA st.userHashPrMap user ≠ none) :
    lookupA (mergeHash user prKey st h).userHashPrMap user ≠ none := by
  rw [mergeHash, (mergePrHash_fields _ _ _).1, (mergeGlobalHash_fields _ _ _).1]
  exact mergeUserHash_user_present user prKey h st hu

theorem mergeHash_id (user prKey : String) (st : Indices) (h : String)
    (hd : hashDone user prKey st h) : mergeHash user prKey st h = st := by
  obtain ⟨h1, h2, h3⟩ := hd
  rw [mergeHash, mergeUserHash_id user prKey h st h1, mergeGlobalHash_id prKey h st h2,
    mergePrHash_id prKey h st h3]

theorem foldl_mergeHash_mono (user prKey : String) (hashes : List String) :
    ∀ (st : Indices) (h' : String), hashDone user prKey st h' →
      hashDone user prKey (hashes.foldl (mergeHash user prKey) st) h' := by
  induction hashes with
  | nil => intro st h' hd; exact hd
  | cons h0 rest ih =>
    intro st h' hd
    rw [List.foldl_cons]
    exact ih _ h' (mergeHash_mono user prKey st h0 h' hd)

theorem foldl_mergeHash_done (user prKey : String) (hashes : List String) :
    ∀ st, ∀ h ∈ hashes, hashDone user prKey (hashes.foldl (mergeHash user prKey) st) h := by
  induction hashes with
  | nil => intro st h hh; exact absurd hh (List.not_mem_nil h)
  | cons h0 rest ih =>
    intro st h hh
    rw [List.foldl_cons]
    rcases List.mem_cons.mp hh with rfl | hh'
    · exact foldl_mergeHash_mono user prKey rest _ _ (mergeHash_done user prKey st h)
    · exact ih _ h hh'

theorem foldl_mergeHash_user_present (user prKey : String) (hashes : List String) :
    ∀ st, lookupA st.userHashPrMap user ≠ none →
      lookupA ((hashes.foldl (mergeHash user prKey) st)).userHashPrMap user ≠ none := by
  induction hashes with
  | nil => intro st hu; exact hu
  | cons h0 rest ih =>
    intro st hu
    rw [List.foldl_cons]
    exact ih _ (mergeHash_user_present user prKey st h0 hu)

theorem ensureUser_user_present (user : String) (st : Indices) :
    lookupA (ensureUser user st).userHashPrMap user ≠ none := by
  cases hlk : lookupA st.userHashPrMap user with
  | some v => simp [ensureUser, hlk]
  | none =>
    simp only [ensureUser, hlk]
    rw [lookupA_append_of_none _ _ _ hlk]
    simp [lookupA]

theorem ensureUser_id (user : String) (st : Indices)
    (hu : lookupA st.userHashPrMap user ≠ none) : ensureUser user st = st := by
  cases hlk : lookupA st.userHashPrMap user with
  | some v => simp [ensureUser, hlk]
  | none => exact absurd hlk hu

theorem mergeChangeLines_fields (st : Indices) (kv : String × List String) :
    (mergeChangeLines st kv).userHashPrMap = st.userHashPrMap ∧
    (mergeChangeLines st kv).hashPrMap = st.hashPrMap ∧
    (mergeChangeLines st kv).prHashMap = st.prHashMap := by
  cases hlk : lookupA st.hashChangeMap kv.1 <;> simp [mergeChangeLines, hlk]

theorem foldl_mergeChangeLines_fields (l : List (String × List String)) :
    ∀ st : Indices,
      ((l.foldl mergeChangeLines st)).userHashPrMap = st.userHashPrMap ∧
      ((l.foldl mergeChangeLines st)).hashPrMap = st.hashPrMap ∧
      ((l.foldl mergeChangeLines st)).prHashMap = st.prHashMap := by
  induction l with
  | nil => intro st; exact ⟨rfl, rfl, rfl⟩
  | cons kv rest ih =>
    intro st
    rw [List.foldl_cons]
    obtain ⟨f1, f2, f3⟩ := ih (mergeChangeLines st kv)
    obtain ⟨g1, g2, g3⟩ := mergeChangeLines_fields st kv
    exact ⟨f1.trans g1, f2.trans g2, f3.trans g3⟩

theorem mergeChangeLines_present_mono (st : Indices) (kv : String × List String) (k : String)
    (hk : lookupA st.hashChangeMap k ≠ none) :
    lookupA (mergeChangeLines st kv).hashChangeMap k ≠ none := by
  cases hlk : lookupA st.hashChangeMap kv.1 with
  | some v => simpa [mergeChangeLines, hlk] using hk
  | none =>
    simp only [mergeChangeLines, hlk]
    rcases hv : lookupA st.hashChangeMap k with _ | v
    · exact absurd hv hk
    · rw [lookupA_append_of_some _ _ _ _ hv]
      simp

theorem mergeChangeLines_self_present (st : Indices) (kv : String × List String) :
    lookupA (mergeChangeLines st kv).hashChangeMap kv.1 ≠ none := by
  cases hlk : lookupA st.hashChangeMap kv.1 with
  | some v => simp [mergeChangeLines, hlk]
  | none =>
    simp only [mergeChangeLines, hlk]
    rw [lookupA_append_of_none _ _ _ hlk]
    simp [lookupA]

theorem mergeChangeLines_id (st : Indices) (kv : String × List String)
    (hk : lookupA st.hashChangeMap kv.1 ≠ none) : mergeChangeLines st kv = st := by
  cases hlk : lookupA st.hashChangeMap kv.1 with
  | some v => simp [mergeChangeLines, hlk]
  | none => exact absurd hlk hk

theorem foldl_mergeChangeLines_present_mono (l : List (String × List String)) :
    ∀ (st : Indices) (k : String), lookupA st.hashChangeMap k ≠ none →
      lookupA ((l.foldl mergeChangeLines st)).hashChangeMap k ≠ none := by
  induction l with
  | nil => intro st k hk; exact hk
  | cons kv rest ih =>
    intro st k hk
    rw [List.foldl_cons]
    exact ih _ k (mergeChangeLines_present_mono st kv k hk)

theorem foldl_mergeChangeLines_present (l : List (String × List String)) :
    ∀ st : Indices, ∀ kv ∈ l,
      lookupA ((l.foldl mergeChangeLines st)).hashChangeMap kv.1 ≠ none := by
  induction l with
  | nil => intro st kv hkv; exact absurd hkv (List.not_mem_nil kv)
  | cons kv0 rest ih =>
    intro st kv hkv
    rw [List.foldl_cons]
    rcases List.mem_cons.mp hkv with rfl | hkv'
    · exact foldl_mergeChangeLines_present_mono rest _ _ (mergeChangeLines_self_present st kv)
    · exact ih _ kv hkv'

theorem foldl_fixed {α β : Type} (f : β → α → β) (l : List α) :
    ∀ st : β, (∀ x ∈ l, f st x = st) → l.foldl f st = st := by
  induction l with
  | nil => intro st _; rfl
  | cons x rest ih =>
    intro st hfix
    rw [List.foldl_cons, hfix x (List.mem_cons_self x rest)]
    exact ih st fun y hy => hfix y (List.mem_cons_of_mem x hy)

/-- C8: merging the same resolved notification (same user, PR URL, fingerprint
list and change-line map) into the shared indices a second time leaves the
user→hash→PRs index, the global hash→PRs index, the PR→hashes index, and the
hash→change-lines map all unchanged. -/
theorem mergeResolution_idem (st : Indices) (r : Resolution) :
    mergeResolution (mergeResolution st r) r = mergeResolution st r := by
  have hms : mergeResolution st r =
      r.changeLines.foldl mergeChangeLines
        (r.hashes.foldl (mergeHash r.user r.prKey) (ensureUser r.user st)) := rfl
  have hP1 : lookupA (mergeResolution st r).userHashPrMap r.user ≠ none := by
    rw [hms, (foldl_mergeChangeLines_fields r.changeLines _).1]
    exact foldl_mergeHash_user_present r.user r.prKey r.hashes _
      (ensureUser_user_present r.user st)
  have hP2 : ∀ h ∈ r.hashes, hashDone r.user r.prKey (mergeResolution st r) h := by
    intro h hh
    have hdone := foldl_mergeHash_done r.user r.prKey r.hashes (ensureUser r.user st) h hh
    obtain ⟨f1, f2, f3⟩ := foldl_mergeChangeLines_fields r.changeLines
      (r.hashes.foldl (mergeHash r.user r.prKey) (ensureUser r.user st))
    rw [hms]
    exact ⟨by rw [f1]; exact hdone.1, by rw [f2]; exact hdone.2.1, by rw [f3]; exact hdone.2.2⟩
  have hP3 : ∀ kv ∈ r.changeLines, lookupA (mergeResolution st r).hashChangeMap kv.1 ≠ none := by
    intro kv hkv
    rw [hms]
    exact foldl_mergeChangeLines_present r.changeLines _ kv hkv
  have h1 : ensureUser r.user (mergeResolution st r) = mergeResolution st r :=
    ensureUser_id _ _ hP1
  have h2 : r.hashes.foldl (mergeHash r.user r.prKey) (mergeResolution st r) =
      mergeResolution st r :=
    foldl_fixed _ r.hashes _ fun h hh => mergeHash_id r.user r.prKey _ h (hP2 h hh)
  have h3 : r.changeLines.foldl mergeChangeLines (mergeResolution st r) =
      mergeResolution st r :=
    foldl_fixed _ r.changeLines _ fun kv hkv => mergeChangeLines_id _ kv (hP3 kv hkv)
  calc mergeResolution (mergeResolution st r) r
      = r.changeLines.foldl mergeChangeLines
          (r.hashes.foldl (mergeHash r.user r.prKey)
            (ensureUser r.user (mergeResolution st r))) := rfl
    _ = mergeResolution st r := by rw [h1, h2, h3]

/-! ### Index consistency -/

theorem indicesConsistent_empty : indicesConsistent emptyIndices := by
  intro f p
  simp [emptyIndices, lookupA]

theorem mergeGlobalPr_maps (prKey h : String) (st : Indices) :
    (mergePrHash prKey h (mergeGlobalHash prKey h st)).hashPrMap =
      (if prKey ∈ (lookupA st.hashPrMap h).getD [] then st.hashPrMap
       else setA h (((lookupA st.hashPrMap h).getD []) ++ [prKey]) st.hashPrMap) ∧
    (mergePrHash prKey h (mergeGlobalHash prKey h st)).prHashMap =
      (if h ∈ (lookupA st.prHashMap prKey).getD [] then st.prHashMap
       else setA prKey (((lookupA st.prHashMap prKey).getD []) ++ [h]) st.prHashMap) := by
  constructor
  · rw [(mergePrHash_fields _ _ _).2.2]
    simp only [mergeGlobalHash]
    by_cases c2 : prKey ∈ (lookupA st.hashPrMap h).getD []
    · rw [if_pos c2, if_pos c2]
    · rw [if_neg c2, if_neg c2]
  · have hpp : (mergeGlobalHash prKey h st).prHashMap = st.prHashMap :=
      (mergeGlobalHash_fields prKey h st).2.2
    simp only [mergePrHash, hpp]
    by_cases c3 : h ∈ (lookupA st.prHashMap prKey).getD []
    · rw [if_pos c3, if_pos c3, hpp]
    · rw [if_neg c3, if_neg c3]

theorem mergeHash_consistent (user prKey : String) (st : Indices) (h : String)
    (hc : indicesConsistent st) : indicesConsistent (mergeHash user prKey st h) := by
  have hc1 : indicesConsistent (mergeUserHash user prKey h st) := by
    intro f p
    rw [(mergeUserHash_fields user prKey h st).2.1, (mergeUserHash_fields user prKey h st).2.2]
    exact hc f p
  obtain ⟨hm2, hm3⟩ := mergeGlobalPr_maps prKey h (mergeUserHash user prKey h st)
  have hcc := hc1 h prKey
  intro f p
  rw [mergeHash, hm2, hm3]
  by_cases c2 : prKey ∈ (lookupA (mergeUserHash user prKey h st).hashPrMap h).getD []
  · rw [if_pos c2, if_pos (hcc.mp c2)]
    exact hc1 f p
  · have c3 : h ∉ (lookupA (mergeUserHash user prKey h st).prHashMap prKey).getD [] :=
      fun hx => c2 (hcc.mpr hx)
    rw [if_neg c2, if_neg c3]
    by_cases hf : f = h <;> by_cases hp : p = prKey
    · subst hf; subst hp
      rw [lookupA_setA_self, lookupA_setA_self]
      simp [List.mem_append]
    · subst hf
      rw [lookupA_setA_self, lookupA_setA_ne _ _ _ _ hp]
      simp only [Option.getD_some, List.mem_append, List.mem_cons, List.not_mem_nil, or_false]
      constructor
      · rintro (hm | rfl)
        · exact (hc1 f p).mp hm
        · exact absurd rfl hp
      · intro hm
        exact Or.inl ((hc1 f p).mpr hm)
    · subst hp
      rw [lookupA_setA_ne _ _ _ _ hf, lookupA_setA_self]
      simp only [Option.getD_some, List.mem_append, List.mem_cons, List.not_mem_nil, or_false]
      constructor
      · intro hm
        exact Or.inl ((hc1 f p).mp hm)
      · rintro (hm | rfl)
        · exact (hc1 f p).mpr hm
        · exact absurd rfl hf
    · rw [lookupA_setA_ne _ _ _ _ hf, lookupA_setA_ne _ _ _ _ hp]
      exact hc1 f p

theorem ensureUser_consistent (user : String) (st : Indices)
    (hc : indicesConsistent st) : indicesConsistent (ensureUser user st) := by
  intro f p
  cases hlk : lookupA st.userHashPrMap user with
  | some v => simpa [ensureUser, hlk] using hc f p
  | none => simpa [ensureUser, hlk] using hc f p

theorem mergeChangeLines_consistent (st : Indices) (kv : String × List String)
    (hc : indicesConsistent st) : indicesConsistent (mergeChangeLines st kv) := by
  intro f p
  rw [(mergeChangeLines_fields st kv).2.1, (mergeChangeLines_fields st kv).2.2]
  exact hc f p

theorem mergeResolution_consistent (st : Indices) (r : Resolution)
    (hc : indicesConsistent st) : indicesConsistent (mergeResolution st r) := by
  have hms : mergeResolution st r =
      r.changeLines.foldl mergeChangeLines
        (r.hashes.foldl (mergeHash r.user r.prKey) (ensureUser r.user st)) := rfl
  rw [hms]
  have hstep1 : indicesConsistent (ensureUser r.user st) := ensureUser_consistent r.user st hc
  have hstep2 : ∀ (hs : List String) (s : Indices), indicesConsistent s →
      indicesConsistent (hs.foldl (mergeHash r.user r.prKey) s) := by
    intro hs
    induction hs with
    | nil => intro s hcs; exact hcs
    | cons h0 rest ih =>
      intro s hcs
      rw [List.foldl_cons]
      exact ih _ (mergeHash_consistent r.user r.prKey s h0 hcs)
  have hstep3 : ∀ (cls : List (String × List String)) (s : Indices), indicesConsistent s →
      indicesConsistent (cls.foldl mergeChangeLines s) := by
    intro cls
    induction cls with
    | nil => intro s hcs; exact hcs
    | cons kv rest ih =>
      intro s hcs
      rw [List.foldl_cons]
      exact ih _ (mergeChangeLines_consistent s kv hcs)
  exact hstep3 r.changeLines _ (hstep2 r.hashes _ hstep1)

theorem foldl_applyResult_consistent (rs : List NotifResult) :
    ∀ st : Indices, indicesConsistent st →
      indicesConsistent (rs.foldl applyResult st) := by
  induction rs with
  | nil => intro st hc; exact hc
  | cons n rest ih =>
    intro st hc
    rw [List.foldl_cons]
    refine ih _ ?_
    cases n with
    | skip => exact hc
    | fail e => exact hc
    | ok r => exact mergeResolution_consistent st r hc

/-- C9: whenever `GetPrReviewRequested` returns indices successfully, the
global hash→PRs and PR→hashes indices are mutually consistent: a PR URL occurs
in `hashPrMap[f]` iff `f` occurs in `prHashMap[p]`. -/
theorem getPrReviewRequested_consistent (rs : List NotifResult) (idx : Indices)
    (hok : getPrReviewRequested (Except.ok rs) = (some idx, none)) :
    indicesConsistent idx := by
  by_cases hfail : rs.any NotifResult.isFail = true
  · simp only [getPrReviewRequested, if_pos hfail, Prod.mk.injEq] at hok
    exact absurd hok.1 (by simp)
  · simp only [getPrReviewRequested, if_neg hfail, Prod.mk.injEq] at hok
    obtain rfl : rs.foldl applyResult emptyIndices = idx := Option.some.inj hok.1
    exact foldl_applyResult_consistent rs emptyIndices indicesConsistent_empty

theorem getPrReviewRequested_consistent_witness :
    indicesConsistent (mergeResolution emptyIndices ⟨"u", "p", ["h"], [("h", ["+l"])]⟩) :=
  getPrReviewRequested_consistent [NotifResult.ok ⟨"u", "p", ["h"], [("h", ["+l"])]⟩]
    (mergeResolution emptyIndices ⟨"u", "p", ["h"], [("h", ["+l"])]⟩) rfl

/-! ### Reviewer-name hash collection -/

theorem mem_hashesOfUser (m : List (String × List (String × List String))) (u x : String) :
    x ∈ hashesOfUser m u ↔
      (∃ umap, lookupA m u = some umap ∧ x ∈ umap.map Prod.fst) ∨
      (lookupA m u = none ∧ ∃ umap, findFold m u = some umap ∧ x ∈ umap.map Prod.fst) := by
  cases hlk : lookupA m u with
  | some umap => simp [hashesOfUser, hlk]
  | none =>
    cases hff : findFold m u with
    | some umap => simp [hashesOfUser, hlk, hff]
    | none => simp [hashesOfUser, hlk, hff]

theorem mem_foldl_append (g : String → List String) (l : List String) :
    ∀ (acc : List String) (x : String),
      x ∈ l.foldl (fun acc u => acc ++ g u) acc ↔ x ∈ acc ∨ ∃ u ∈ l, x ∈ g u := by
  induction l with
  | nil => intro acc x; simp
  | cons u0 rest ih =>
    intro acc x
    rw [List.foldl_cons, ih]
    simp only [List.mem_append, List.mem_cons]
    constructor
    · rintro ((hx | hg) | ⟨u, hu, hg⟩)
      · exact Or.inl hx
      · exact Or.inr ⟨u0, Or.inl rfl, hg⟩
      · exact Or.inr ⟨u, Or.inr hu, hg⟩
    · rintro (hx | ⟨u, rfl | hu, hg⟩)
      · exact Or.inl (Or.inl hx)
      · exact Or.inl (Or.inr hg)
      · exact Or.inr ⟨u, hu, hg⟩

/-- C10: `collectHashesForUsers` splits its argument on commas; per name it
takes the hashes of the exact-matching index key when present and otherwise
those of the first case-insensitively matching key; the result is the
duplicate-free union of those hash sets in sorted order. -/
theorem collectHashesForUsers_spec (user : String)
    (m : List (String × List (String × List String))) :
    (collectHashesForUsers user m).Sorted (· ≤ ·) ∧
    (collectHashesForUsers user m).Nodup ∧
    ∀ x : String, x ∈ collectHashesForUsers user m ↔
      ∃ u ∈ user.splitOn ",",
        (∃ umap, lookupA m u = some umap ∧ x ∈ umap.map Prod.fst) ∨
        (lookupA m u = none ∧ ∃ umap, findFold m u = some umap ∧ x ∈ umap.map Prod.fst) := by
  refine ⟨?_, ?_, ?_⟩
  · rw [collectHashesForUsers]
    exact List.sorted_insertionSort _ _
  · rw [collectHashesForUsers]
    exact ((List.perm_insertionSort _ _).nodup_iff).mpr (List.nodup_dedup _)
  · intro x
    rw [collectHashesForUsers, (List.perm_insertionSort _ _).mem_iff, List.mem_dedup,
      mem_foldl_append]
    simp only [List.not_mem_nil, false_or]
    constructor
    · rintro ⟨u, hu, hx⟩
      exact ⟨u, hu, (mem_hashesOfUser m u x).mp hx⟩
    · rintro ⟨u, hu, hx⟩
      exact ⟨u, hu, (mem_hashesOfUser m u x).mpr hx⟩

end GhPrReview
